import Mathlib

/-!
Verification of the `cute` comprehension macro (src/lib.rs).

The repository is a single `macro_rules`-style definition `c!` whose arms
expand a comprehension description into imperative Rust code: a mutable
output container and nested `for` loops, with an optional trailing `if`
filter, and a `key => value` head variant building a `HashMap`.

Each macro arm is shallowly embedded below as a Lean function on lists.
The imperative `let mut r = vec![]; for .. { r.push(..) }` loop is embedded
as a `List.foldl` that threads the output container; a `HashMap` is embedded
as an association list with replace-or-append insertion (Rust's
`HashMap::insert` overwrite semantics), since the spec guarantees only key
uniqueness and last-write-wins, never an iteration order.

Components of the specified design that do not exist in the source (the
general Clause Model, the Clause Sequence Parser with `GrammarError`, and
the lazy lowering engine) are modelled from the spec and are marked as such
in their doc comments.
-/

namespace Cute

/-- Embedding of the single-generator Value arm (src/lib.rs lines 144-152):
`let mut r = vec![]; for i in iter { r.push(exp); } r`. -/
def cOne {α β : Type} (exp : α → β) (iter : List α) : List β :=
  iter.foldl (fun r i => r ++ [exp i]) []

/-- Embedding of the single-generator Value arm with filter (src/lib.rs lines
154-164): `for i in iter { if cond { r.push(exp.clone()); } }`.  In this value
model `clone` is the identity. -/
def cOneIf {α β : Type} (exp : α → β) (iter : List α) (cond : α → Bool) : List β :=
  iter.foldl (fun r i => if cond i then r ++ [exp i] else r) []

/-- Embedding of the two-generator Value arm (src/lib.rs lines 166-176):
`for i2 in iter2 { for i in iter { r.push(exp); } }`.  Note the loop order:
the binder written second (`i2`) drives the OUTER loop, and the first-written
source `iter` may mention `i2`, hence its function type. -/
def cTwo {α β γ : Type} (exp : γ → α → β) (iter : γ → List α) (iter2 : List γ) : List β :=
  iter2.foldl (fun r i2 => (iter i2).foldl (fun r2 i => r2 ++ [exp i2 i]) r) []

/-- Embedding of the two-generator Value arm with filter (src/lib.rs lines
178-190): the condition sits in the innermost loop body. -/
def cTwoIf {α β γ : Type} (exp : γ → α → β) (iter : γ → List α) (iter2 : List γ)
    (cond : γ → α → Bool) : List β :=
  iter2.foldl (fun r i2 =>
    (iter i2).foldl (fun r2 i => if cond i2 i then r2 ++ [exp i2 i] else r2) r) []

/-- Embedding of the three-generator Value arm (src/lib.rs lines 208-220):
`for i in iter { for i2 in iter2 { for i3 in iter3 { r.push(exp); } } }`.
Here the first-written binder `i` drives the OUTER loop; later sources may
mention the earlier binders. -/
def cThree {α β γ δ : Type} (exp : α → β → γ → δ) (iter : List α)
    (iter2 : α → List β) (iter3 : α → β → List γ) : List δ :=
  iter.foldl (fun r i =>
    (iter2 i).foldl (fun r2 i2 =>
      (iter3 i i2).foldl (fun r3 i3 => r3 ++ [exp i i2 i3]) r2) r) []

/-- Embedding of the three-generator Value arm with filter (src/lib.rs lines
192-206): the condition is evaluated in the INNERMOST loop body, after all
three generators have bound. -/
def cThreeIf {α β γ δ : Type} (exp : α → β → γ → δ) (iter : List α)
    (iter2 : α → List β) (iter3 : α → β → List γ) (cond : α → β → γ → Bool) : List δ :=
  iter.foldl (fun r i =>
    (iter2 i).foldl (fun r2 i2 =>
      (iter3 i i2).foldl (fun r3 i3 =>
        if cond i i2 i3 then r3 ++ [exp i i2 i3] else r3) r2) r) []

/-- Written from the claim's words, for comparison with `cTwo`: a
two-generator nested loop in which the FIRST-written generator iterates
outermost (sources taken independent so both orders are expressible). -/
def specTwoFirstOutermost {α β γ : Type} (exp : γ → α → β) (iter : List α)
    (iter2 : List γ) : List β :=
  iter.flatMap (fun i => iter2.map (fun i2 => exp i2 i))

/- Fold lemmas relating the imperative push-loops to `map`, `filter` and
`flatMap`. -/

theorem foldl_push_append {α β : Type} (exp : α → β) (xs : List α) :
    ∀ acc : List β, xs.foldl (fun r i => r ++ [exp i]) acc = acc ++ xs.map exp := by
  induction xs with
  | nil => intro acc; simp
  | cons x xs ih => intro acc; simp [List.foldl, ih, List.append_assoc]

theorem foldl_push_filter {α β : Type} (exp : α → β) (cond : α → Bool) (xs : List α) :
    ∀ acc : List β,
      xs.foldl (fun r i => if cond i then r ++ [exp i] else r) acc
        = acc ++ (xs.filter cond).map exp := by
  induction xs with
  | nil => intro acc; simp
  | cons x xs ih =>
    intro acc
    by_cases h : cond x <;> simp [List.foldl, h, ih, List.filter, List.append_assoc]

theorem foldl_step_flatMap {α β : Type} (F : List β → α → List β) (G : α → List β)
    (h : ∀ acc v, F acc v = acc ++ G v) (xs : List α) :
    ∀ acc : List β, xs.foldl F acc = acc ++ xs.flatMap G := by
  induction xs with
  | nil => intro acc; simp
  | cons x xs ih => intro acc; simp [List.foldl, h, ih, List.append_assoc]

theorem cTwo_eq_flatMap {α β γ : Type} (exp : γ → α → β) (iter : γ → List α)
    (iter2 : List γ) :
    cTwo exp iter iter2 = iter2.flatMap (fun i2 => (iter i2).map (exp i2)) := by
  have key := foldl_step_flatMap
    (fun r i2 => (iter i2).foldl (fun r2 i => r2 ++ [exp i2 i]) r)
    (fun i2 => (iter i2).map (exp i2))
    (fun acc v => foldl_push_append (exp v) (iter v) acc) iter2 []
  simpa [cTwo] using key

theorem cThree_eq_flatMap {α β γ δ : Type} (exp : α → β → γ → δ) (iter : List α)
    (iter2 : α → List β) (iter3 : α → β → List γ) :
    cThree exp iter iter2 iter3
      = iter.flatMap (fun i => (iter2 i).flatMap (fun i2 => (iter3 i i2).map (exp i i2))) := by
  have inner : ∀ (i : α) (acc : List δ),
      (iter2 i).foldl (fun r2 i2 =>
          (iter3 i i2).foldl (fun r3 i3 => r3 ++ [exp i i2 i3]) r2) acc
        = acc ++ (iter2 i).flatMap (fun i2 => (iter3 i i2).map (exp i i2)) :=
    fun i acc => foldl_step_flatMap
      (fun r2 i2 => (iter3 i i2).foldl (fun r3 i3 => r3 ++ [exp i i2 i3]) r2)
      (fun i2 => (iter3 i i2).map (exp i i2))
      (fun acc2 i2 => foldl_push_append (exp i i2) (iter3 i i2) acc2) (iter2 i) acc
  have key := foldl_step_flatMap
    (fun r i => (iter2 i).foldl (fun r2 i2 =>
        (iter3 i i2).foldl (fun r3 i3 => r3 ++ [exp i i2 i3]) r2) r)
    (fun i => (iter2 i).flatMap (fun i2 => (iter3 i i2).map (exp i i2)))
    (fun acc i => inner i acc) iter []
  simpa [cThree] using key

/-- Claim C5: for the single-generator Value arm, the eager output is an
ordered sequence whose elements appear exactly in traversal order, duplicates
permitted: the i-th tuple of the traversal contributes the i-th output
element. -/
theorem value_head_order {α β : Type} (exp : α → β) (iter : List α) (i : Nat) :
    cOne exp iter = iter.map exp ∧ (cOne exp iter)[i]? = iter[i]?.map exp := by
  have h : cOne exp iter = iter.map exp := by
    unfold cOne; rw [foldl_push_append]; simp
  exact ⟨h, by rw [h, List.getElem?_map]⟩

/-- Claim C9: the single-generator Value arm with a filter equals the
filterless arm applied to the subsequence of source elements satisfying the
predicate (filter-then-map fusion), for every source, predicate and head. -/
theorem filter_map_fusion {α β : Type} (exp : α → β) (cond : α → Bool) (iter : List α) :
    cOneIf exp iter cond = cOne exp (iter.filter cond) := by
  unfold cOneIf cOne
  rw [foldl_push_filter, foldl_push_append]

/-- Claim C1, counterexample: in the two-generator Value arm the first-written
generator is NOT outermost.  With first-written `x in [0,1]` and second-written
`y in [10,20]` and head `(x, y)`, the code produces
`[(0,10),(1,10),(0,20),(1,20)]` (second-written generator outermost), which
differs from the first-written-outermost order `[(0,10),(0,20),(1,10),(1,20)]`
the claim demands.  This matches the repository's own test
`iter_nested_comprehension`. -/
theorem two_gen_order_counterexample :
    cTwo (fun (y : Nat) (x : Nat) => (x, y)) (fun _ => [0, 1]) [10, 20]
        = [(0, 10), (1, 10), (0, 20), (1, 20)]
      ∧ cTwo (fun (y : Nat) (x : Nat) => (x, y)) (fun _ => [0, 1]) [10, 20]
        ≠ specTwoFirstOutermost (fun (y : Nat) (x : Nat) => (x, y)) [0, 1] [10, 20] := by
  constructor
  · rfl
  · intro h
    have : specTwoFirstOutermost (fun (y : Nat) (x : Nat) => (x, y)) [0, 1] [10, 20]
        = [(0, 10), (0, 20), (1, 10), (1, 20)] := rfl
    rw [this] at h
    have h2 : cTwo (fun (y : Nat) (x : Nat) => (x, y)) (fun _ => [0, 1]) [10, 20]
        = [(0, 10), (1, 10), (0, 20), (1, 20)] := rfl
    rw [h2] at h
    simp at h

/-- Claim C1 (amended): nesting order of the actual arms.  In the
three-generator arm the first-written generator is outermost (standard
nested-loop order); in the two-generator arm the order is reversed: the
second-written generator is outermost and the first-written one is the inner
loop. -/
theorem nested_order_actual {α β γ α2 β2 γ2 δ2 : Type} (exp : γ → α → β)
    (iter : γ → List α) (iter2 : List γ) (exp3 : α2 → β2 → γ2 → δ2)
    (it : List α2) (it2 : α2 → List β2) (it3 : α2 → β2 → List γ2) :
    cTwo exp iter iter2 = iter2.flatMap (fun i2 => (iter i2).map (exp i2))
      ∧ cThree exp3 it it2 it3
        = it.flatMap (fun i => (it2 i).flatMap (fun i2 => (it3 i i2).map (exp3 i i2))) :=
  ⟨cTwo_eq_flatMap exp iter iter2, cThree_eq_flatMap exp3 it it2 it3⟩

/-- Instrumented embedding of the three-generator arm with filter (src/lib.rs
lines 192-206): the same loop structure as `cThreeIf`, additionally counting
one pull per element taken from the innermost source `iter3`. -/
def cThreeIfTraced {α β γ δ : Type} (exp : α → β → γ → δ) (iter : List α)
    (iter2 : α → List β) (iter3 : α → β → List γ) (cond : α → β → γ → Bool) :
    List δ × Nat :=
  iter.foldl (fun s i =>
    (iter2 i).foldl (fun s2 i2 =>
      (iter3 i i2).foldl (fun s3 i3 =>
        (if cond i i2 i3 then s3.1 ++ [exp i i2 i3] else s3.1, s3.2 + 1)) s2) s) ([], 0)

/-- Total number of elements of the innermost source visited by the
three-generator loops: a function of the sources alone, independent of the
filter and of the head expression. -/
def innerPulls {α β γ : Type} (iter : List α) (iter2 : α → List β)
    (iter3 : α → β → List γ) : Nat :=
  (iter.map (fun i => ((iter2 i).map (fun i2 => (iter3 i i2).length)).sum)).sum

theorem foldl_weighted {β δ : Type} (T : List δ × Nat → β → List δ × Nat)
    (step : List δ → β → List δ) (w : β → Nat)
    (h : ∀ s i, T s i = (step s.1 i, s.2 + w i)) (l : List β) :
    ∀ s : List δ × Nat, l.foldl T s = (l.foldl step s.1, s.2 + (l.map w).sum) := by
  induction l with
  | nil => intro s; simp
  | cons x l ih =>
    intro s
    simp only [List.foldl_cons, List.map_cons, List.sum_cons]
    rw [h, ih]
    simp [Nat.add_assoc]

theorem sum_map_one {γ : Type} (l : List γ) : (l.map (fun _ => (1 : Nat))).sum = l.length := by
  induction l with
  | nil => simp
  | cons x l ih => simp [ih, Nat.add_comm]

/-- Claim C3, counterexample: with outer source `[0]`, inner sources `[0]`
and a filter `x = 1` that references only the outermost binding and rejects
the only outer element, the three-generator arm still pulls one element from
the innermost source (`.2 = 1`) while producing no output — the inner sources
ARE iterated for rejected outer elements, because the filter is compiled into
the innermost loop body. -/
theorem filter_pulls_counterexample :
    (fun (x : Nat) (_ : Nat) (_ : Nat) => decide (x = 1)) 0 0 0 = false
      ∧ (cThreeIfTraced (fun (x : Nat) (y : Nat) (z : Nat) => (x, y, z)) [0]
          (fun _ => [0]) (fun _ _ => [0]) (fun x _ _ => decide (x = 1))).2 = 1
      ∧ (cThreeIfTraced (fun (x : Nat) (y : Nat) (z : Nat) => (x, y, z)) [0]
          (fun _ => [0]) (fun _ _ => [0]) (fun x _ _ => decide (x = 1))).1 = [] := by
  decide

/-- Claim C3 (amended): in the three-generator arm with filter the conjoined
filter is evaluated at the innermost level, after all generators have bound;
consequently the number of innermost-source elements pulled equals
`innerPulls`, a function of the sources alone — the same for every filter, so
no deeper iteration is pruned for rejected outer elements. -/
theorem innermost_filter_pulls {α β γ δ : Type} (exp : α → β → γ → δ)
    (iter : List α) (iter2 : α → List β) (iter3 : α → β → List γ)
    (cond : α → β → γ → Bool) :
    cThreeIfTraced exp iter iter2 iter3 cond
      = (cThreeIf exp iter iter2 iter3 cond, innerPulls iter iter2 iter3) := by
  have h3 : ∀ (i : α) (i2 : β) (s : List δ × Nat),
      (iter3 i i2).foldl (fun s3 i3 =>
          (if cond i i2 i3 then s3.1 ++ [exp i i2 i3] else s3.1, s3.2 + 1)) s
        = ((iter3 i i2).foldl (fun r3 i3 =>
            if cond i i2 i3 then r3 ++ [exp i i2 i3] else r3) s.1,
           s.2 + (iter3 i i2).length) := by
    intro i i2 s
    have h := foldl_weighted
      (fun s3 i3 => (if cond i i2 i3 then s3.1 ++ [exp i i2 i3] else s3.1, s3.2 + 1))
      (fun r3 i3 => if cond i i2 i3 then r3 ++ [exp i i2 i3] else r3)
      (fun _ => 1) (fun _ _ => rfl) (iter3 i i2) s
    rw [h, sum_map_one]
  have h2 : ∀ (i : α) (s : List δ × Nat),
      (iter2 i).foldl (fun s2 i2 =>
          (iter3 i i2).foldl (fun s3 i3 =>
            (if cond i i2 i3 then s3.1 ++ [exp i i2 i3] else s3.1, s3.2 + 1)) s2) s
        = ((iter2 i).foldl (fun r2 i2 =>
            (iter3 i i2).foldl (fun r3 i3 =>
              if cond i i2 i3 then r3 ++ [exp i i2 i3] else r3) r2) s.1,
           s.2 + ((iter2 i).map (fun i2 => (iter3 i i2).length)).sum) :=
    fun i s => foldl_weighted
      (fun s2 i2 => (iter3 i i2).foldl (fun s3 i3 =>
        (if cond i i2 i3 then s3.1 ++ [exp i i2 i3] else s3.1, s3.2 + 1)) s2)
      (fun r2 i2 => (iter3 i i2).foldl (fun r3 i3 =>
        if cond i i2 i3 then r3 ++ [exp i i2 i3] else r3) r2)
      (fun i2 => (iter3 i i2).length)
      (fun s2 i2 => h3 i i2 s2) (iter2 i) s
  have h1 := foldl_weighted
    (fun s i => (iter2 i).foldl (fun s2 i2 =>
      (iter3 i i2).foldl (fun s3 i3 =>
        (if cond i i2 i3 then s3.1 ++ [exp i i2 i3] else s3.1, s3.2 + 1)) s2) s)
    (fun r i => (iter2 i).foldl (fun r2 i2 =>
      (iter3 i i2).foldl (fun r3 i3 =>
        if cond i i2 i3 then r3 ++ [exp i i2 i3] else r3) r2) r)
    (fun i => ((iter2 i).map (fun i2 => (iter3 i i2).length)).sum)
    (fun s i => h2 i s) iter ([], 0)
  simpa [cThreeIfTraced, cThreeIf, innerPulls] using h1

set_option maxRecDepth 10000 in
/-- Claim C6: the Pythagorean-triple comprehension `x in [1..11)`,
`y in [x..11)`, `z in [y..11)`, filter `x*x + y*y == z*z`, head `(x,y,z)`
produces exactly `[(3,4,5), (6,8,10)]` (the repository test
`repeated_nested_comprehension`). -/
theorem pythagorean_triples :
    cThreeIf (fun x y z => (x, y, z)) (List.range' 1 10)
        (fun x => List.range' x (11 - x)) (fun _ y => List.range' y (11 - y))
        (fun x y z => decide (x * x + y * y = z * z))
      = [(3, 4, 5), (6, 8, 10)] := by
  decide

/- KeyValue arms.  Rust's `HashMap` is embedded as an association list whose
`insert` replaces the value of an existing key in place and otherwise appends
a fresh entry: exactly `HashMap::insert`'s overwrite semantics, with key
uniqueness as the only order guarantee (the spec promises no iteration
order). -/

/-- Overwrite-or-append insertion, the embedding of `map.insert(key, val)`. -/
def insertKV {κ ν : Type} [DecidableEq κ] : List (κ × ν) → κ → ν → List (κ × ν)
  | [], k, v => [(k, v)]
  | p :: m, k, v => if p.1 = k then (k, v) :: m else p :: insertKV m k v

/-- Association-list lookup, the embedding of `map.get(&key)`. -/
def lookupKV {κ ν : Type} [DecidableEq κ] : List (κ × ν) → κ → Option ν
  | [], _ => none
  | p :: m, k => if p.1 = k then some p.2 else lookupKV m k

/-- Left-biased choice on `Option`. -/
def oor {ν : Type} : Option ν → Option ν → Option ν
  | some v, _ => some v
  | none, b => b

/-- Embedding of the KeyValue arm binding a destructuring pattern (src/lib.rs
lines 222-231): `for p in iter { map.insert(key, val); }`. -/
def cKVPat {α κ ν : Type} [DecidableEq κ] (key : α → κ) (val : α → ν)
    (iter : List α) : List (κ × ν) :=
  iter.foldl (fun m i => insertKV m (key i) (val i)) []

/-- Embedding of the KeyValue arm binding a pattern, with filter (src/lib.rs
lines 233-244). -/
def cKVPatIf {α κ ν : Type} [DecidableEq κ] (key : α → κ) (val : α → ν)
    (iter : List α) (cond : α → Bool) : List (κ × ν) :=
  iter.foldl (fun m i => if cond i then insertKV m (key i) (val i) else m) []

/-- Embedding of the KeyValue arm binding a simple identifier (src/lib.rs
lines 246-255); its expansion is the same loop as the pattern arm. -/
def cKVIdent {α κ ν : Type} [DecidableEq κ] (key : α → κ) (val : α → ν)
    (iter : List α) : List (κ × ν) :=
  iter.foldl (fun m i => insertKV m (key i) (val i)) []

/-- Embedding of the KeyValue arm binding a simple identifier, with filter
(src/lib.rs lines 257-268). -/
def cKVIdentIf {α κ ν : Type} [DecidableEq κ] (key : α → κ) (val : α → ν)
    (iter : List α) (cond : α → Bool) : List (κ × ν) :=
  iter.foldl (fun m i => if cond i then insertKV m (key i) (val i) else m) []

theorem lookupKV_insertKV {κ ν : Type} [DecidableEq κ] (m : List (κ × ν))
    (k : κ) (v : ν) (q : κ) :
    lookupKV (insertKV m k v) q = if k = q then some v else lookupKV m q := by
  induction m with
  | nil =>
    by_cases h : k = q
    · subst h; simp [insertKV, lookupKV]
    · simp [insertKV, lookupKV, h]
  | cons p m ih =>
    by_cases hp : p.1 = k
    · subst hp
      by_cases hq : p.1 = q
      · subst hq; simp [insertKV, lookupKV]
      · simp [insertKV, lookupKV, hq]
    · by_cases hq : k = q
      · subst hq
        have hpq : p.1 ≠ k := hp
        simp [insertKV, lookupKV, hp, hpq, ih]
      · simp only [insertKV, if_neg hp, lookupKV]
        by_cases hpq : p.1 = q
        · simp [hpq, hq]
        · simp [hpq, hq, ih]

theorem mem_keys_insertKV {κ ν : Type} [DecidableEq κ] (m : List (κ × ν))
    (k : κ) (v : ν) (a : κ) :
    a ∈ (insertKV m k v).map Prod.fst ↔ a ∈ m.map Prod.fst ∨ a = k := by
  induction m with
  | nil => simp [insertKV]
  | cons p m ih =>
    by_cases hp : p.1 = k
    · subst hp; simp [insertKV]; tauto
    · simp [insertKV, hp, ih]; tauto

theorem nodup_keys_insertKV {κ ν : Type} [DecidableEq κ] (m : List (κ × ν))
    (k : κ) (v : ν) (h : (m.map Prod.fst).Nodup) :
    ((insertKV m k v).map Prod.fst).Nodup := by
  induction m with
  | nil => simp [insertKV]
  | cons p m ih =>
    simp only [List.map_cons, List.nodup_cons] at h
    by_cases hp : p.1 = k
    · subst hp; simpa [insertKV] using h
    · have hmem : p.1 ∉ (insertKV m k v).map Prod.fst := by
        rw [mem_keys_insertKV]
        intro hc
        rcases hc with hc | hc
        · exact h.1 hc
        · exact hp hc
      simp only [insertKV, if_neg hp, List.map_cons, List.nodup_cons]
      exact ⟨hmem, ih h.2⟩

theorem lookupKV_append {κ ν : Type} [DecidableEq κ] (xs ys : List (κ × ν)) (k : κ) :
    lookupKV (xs ++ ys) k = oor (lookupKV xs k) (lookupKV ys k) := by
  induction xs with
  | nil => simp [lookupKV, oor]
  | cons p xs ih =>
    by_cases hp : p.1 = k
    · simp [lookupKV, hp, oor]
    · simp [lookupKV, hp, ih]

theorem oor_assoc {ν : Type} (a b c : Option ν) : oor (oor a b) c = oor a (oor b c) := by
  cases a <;> rfl

theorem oor_none_right {ν : Type} (a : Option ν) : oor a none = a := by
  cases a <;> rfl

theorem kvfold_lookup {κ ν : Type} [DecidableEq κ] (ts : List (κ × ν)) (k : κ) :
    ∀ m : List (κ × ν),
      lookupKV (ts.foldl (fun m p => insertKV m p.1 p.2) m) k
        = oor (lookupKV ts.reverse k) (lookupKV m k) := by
  induction ts with
  | nil => intro m; simp [lookupKV, oor]
  | cons p ts ih =>
    intro m
    simp only [List.foldl_cons, List.reverse_cons]
    rw [ih, lookupKV_append, oor_assoc]
    congr 1
    rw [lookupKV_insertKV]
    by_cases hp : p.1 = k <;> simp [lookupKV, oor, hp]

theorem kvfold_nodup {κ ν : Type} [DecidableEq κ] (ts : List (κ × ν)) :
    ∀ m : List (κ × ν), (m.map Prod.fst).Nodup →
      ((ts.foldl (fun m p => insertKV m p.1 p.2) m).map Prod.fst).Nodup := by
  induction ts with
  | nil => intro m h; exact h
  | cons p ts ih =>
    intro m h
    exact ih _ (nodup_keys_insertKV m p.1 p.2 h)

theorem cKVPatIf_eq_fold {α κ ν : Type} [DecidableEq κ] (key : α → κ) (val : α → ν)
    (iter : List α) (cond : α → Bool) :
    cKVPatIf key val iter cond
      = ((iter.filter cond).map (fun i => (key i, val i))).foldl
          (fun m p => insertKV m p.1 p.2) [] := by
  unfold cKVPatIf
  suffices h : ∀ m : List (κ × ν),
      iter.foldl (fun m i => if cond i then insertKV m (key i) (val i) else m) m
        = ((iter.filter cond).map (fun i => (key i, val i))).foldl
            (fun m p => insertKV m p.1 p.2) m by
    exact h []
  induction iter with
  | nil => intro m; rfl
  | cons x xs ih =>
    intro m
    by_cases hx : cond x <;> simp [List.filter_cons, hx, ih]

/-- Claim C4: for the KeyValue arm with filter, the associative output has
each key at most once (`Nodup` key list), and looking a key up yields the
value of the LAST surviving tuple, in traversal order, that produced the key
(first match in the reversed traversal sequence): last-write-wins. -/
theorem kv_last_write_wins {α κ ν : Type} [DecidableEq κ] (key : α → κ)
    (val : α → ν) (iter : List α) (cond : α → Bool) (k : κ) :
    ((cKVPatIf key val iter cond).map Prod.fst).Nodup
      ∧ lookupKV (cKVPatIf key val iter cond) k
        = lookupKV ((iter.filter cond).map (fun i => (key i, val i))).reverse k := by
  rw [cKVPatIf_eq_fold]
  constructor
  · exact kvfold_nodup _ [] (by simp)
  · rw [kvfold_lookup]
    exact oor_none_right _

/-- Claim C10: the KeyValue arms binding a destructuring pattern and the ones
binding a simple identifier expand to the same loops, hence are behaviorally
equivalent: identical associative outputs, with and without filter. -/
theorem pattern_ident_equiv {α κ ν : Type} [DecidableEq κ] (key : α → κ)
    (val : α → ν) (iter : List α) (cond : α → Bool) :
    cKVPat key val iter = cKVIdent key val iter
      ∧ cKVPatIf key val iter cond = cKVIdentIf key val iter cond :=
  ⟨rfl, rfl⟩

/- Accepted clause shapes.  The expansion is a fixed, finite family of arms;
a comprehension is accepted exactly when its clause-tag sequence (generators
and filters, in written order, head kind aside) matches one of them. -/

/-- Tag of a clause: generator or filter. -/
inductive ClauseTag where
  | gen : ClauseTag
  | filt : ClauseTag
deriving DecidableEq

/-- Kind of the head: single value or key/value pair. -/
inductive HeadKind where
  | value : HeadKind
  | keyValue : HeadKind
deriving DecidableEq

/-- The clause-tag sequences for which the expansion has an arm (src/lib.rs
lines 144-268): Value heads with one, two or three generators and at most one
trailing filter; KeyValue heads with one generator and at most one trailing
filter (the pattern and identifier arms share the same shape). -/
def armAccepts : HeadKind → List ClauseTag → Bool
  | HeadKind.value, [ClauseTag.gen] => true
  | HeadKind.value, [ClauseTag.gen, ClauseTag.filt] => true
  | HeadKind.value, [ClauseTag.gen, ClauseTag.gen] => true
  | HeadKind.value, [ClauseTag.gen, ClauseTag.gen, ClauseTag.filt] => true
  | HeadKind.value, [ClauseTag.gen, ClauseTag.gen, ClauseTag.gen, ClauseTag.filt] => true
  | HeadKind.value, [ClauseTag.gen, ClauseTag.gen, ClauseTag.gen] => true
  | HeadKind.keyValue, [ClauseTag.gen] => true
  | HeadKind.keyValue, [ClauseTag.gen, ClauseTag.filt] => true
  | _, _ => false

/-- Claim C7, counterexample: a clause list of four generators with a Value
head matches no arm — the compiler does NOT accept every number of generator
clauses. -/
theorem four_generators_rejected :
    armAccepts HeadKind.value
      [ClauseTag.gen, ClauseTag.gen, ClauseTag.gen, ClauseTag.gen] = false := by
  decide

/-- Claim C7 (amended): the set of accepted clause lists is bounded — every
accepted clause list has at most 4 clauses, at most 3 generators and at most
1 filter; there is an upper bound on clause count. -/
theorem accepted_shapes_bounded (hk : HeadKind) (cs : List ClauseTag)
    (hacc : armAccepts hk cs = true) :
    cs.length ≤ 4
      ∧ cs.countP (fun c => decide (c = ClauseTag.gen)) ≤ 3
      ∧ cs.countP (fun c => decide (c = ClauseTag.filt)) ≤ 1 := by
  unfold armAccepts at hacc
  split at hacc
  case _ => decide
  case _ => decide
  case _ => decide
  case _ => decide
  case _ => decide
  case _ => decide
  case _ => decide
  case _ => decide
  case _ => exact absurd hacc (by decide)

/-- Witness for `accepted_shapes_bounded` at the single-generator Value
shape. -/
theorem accepted_shapes_bounded_witness :
    armAccepts HeadKind.value [ClauseTag.gen] = true
      ∧ ([ClauseTag.gen].length ≤ 4
          ∧ [ClauseTag.gen].countP (fun c => decide (c = ClauseTag.gen)) ≤ 3
          ∧ [ClauseTag.gen].countP (fun c => decide (c = ClauseTag.filt)) ≤ 1) :=
  ⟨by decide, accepted_shapes_bounded HeadKind.value [ClauseTag.gen] (by decide)⟩

/- The generalized Clause Model, the Clause Sequence Parser and the two
lowering engines of the specified design are not present in src/ (the source
is the fixed-arity expansion above); they are modelled from the spec below.
Bindings are modelled as an environment `List V` that grows by one value per
generator; sources and predicates are opaque functions of the environment, as
the spec treats user expressions as opaque callable units. -/

/-- Modelled from the spec: a Clause Model clause (sect. 3) — a `Generator`
whose source may read all earlier bindings, or a `Filter` predicate over the
bindings. -/
inductive Clause (V : Type) where
  | gen : (List V → List V) → Clause V
  | filt : (List V → Bool) → Clause V

/-- Modelled from the spec: a Clause Model with a `Value` head (sect. 3). -/
structure ClauseModel (V W : Type) where
  clauses : List (Clause V)
  head : List V → W

/-- Modelled from the spec: the Eager Lowering Engine (sect. 4.3) — nested
loops threading one output container, appending the head value at the
innermost point; a failing filter skips to the next source element. -/
def evalEagerGo {V W : Type} : List (Clause V) → (List V → W) → List V → List W → List W
  | [], head, env, acc => acc ++ [head env]
  | Clause.gen src :: rest, head, env, acc =>
      (src env).foldl (fun r v => evalEagerGo rest head (env ++ [v]) r) acc
  | Clause.filt p :: rest, head, env, acc =>
      if p env then evalEagerGo rest head env acc else acc

/-- Modelled from the spec: `materialize(compile_eager(M))` (sect. 6). -/
def materializeEager {V W : Type} (M : ClauseModel V W) : List W :=
  evalEagerGo M.clauses M.head [] []

/-- Modelled from the spec: the Lazy Lowering Engine (sect. 4.4) — a
filter/flat-map chain over the sequence of binding environments, forced to a
list (forcing a finite lazy sequence to completion yields exactly this
list). -/
def lazyStages {V W : Type} : List (Clause V) → (List V → W) → List V → List W
  | [], head, env => [head env]
  | Clause.gen src :: rest, head, env =>
      (src env).flatMap (fun v => lazyStages rest head (env ++ [v]))
  | Clause.filt p :: rest, head, env =>
      if p env then lazyStages rest head env else []

/-- Modelled from the spec: `collect(compile_lazy(M))` (sect. 6). -/
def collectLazy {V W : Type} (M : ClauseModel V W) : List W :=
  lazyStages M.clauses M.head []

theorem evalEagerGo_eq_lazyStages {V W : Type} (cs : List (Clause V)) :
    ∀ (head : List V → W) (env : List V) (acc : List W),
      evalEagerGo cs head env acc = acc ++ lazyStages cs head env := by
  induction cs with
  | nil => intro head env acc; rfl
  | cons c rest ih =>
    intro head env acc
    cases c with
    | gen src =>
      simp only [evalEagerGo, lazyStages]
      exact foldl_step_flatMap
        (fun r v => evalEagerGo rest head (env ++ [v]) r)
        (fun v => lazyStages rest head (env ++ [v]))
        (fun a v => ih head (env ++ [v]) a) (src env) acc
    | filt p =>
      by_cases hp : p env <;> simp [evalEagerGo, lazyStages, hp, ih]

/-- Claim C2: for every Clause Model with a `Value` head, materializing the
eager compilation's output equals collecting the lazy compilation's output,
element for element, in order. -/
theorem materialize_eq_collect {V W : Type} (M : ClauseModel V W) :
    materializeEager M = collectLazy M := by
  have h := evalEagerGo_eq_lazyStages M.clauses M.head [] []
  simpa [materializeEager, collectLazy] using h

/-- Modelled from the spec: the grammar errors of the Clause Sequence Parser
(sect. 4.1, sect. 7). -/
inductive GrammarError where
  | MissingLeadingGenerator : GrammarError
  | MalformedPattern : GrammarError
  | NoHead : GrammarError
deriving DecidableEq

/-- Modelled from the spec: a raw clause description handed to the parser —
an entry tagged generator-with-source, filter-with-predicate, or terminal
head (sect. 4.1). -/
inductive RawEntry (V W : Type) where
  | genE : (List V → List V) → RawEntry V W
  | filtE : (List V → Bool) → RawEntry V W
  | headE : (List V → W) → RawEntry V W

/-- Modelled from the spec: parser loop after the leading generator has been
seen — accumulates clauses and requires a terminal head (sect. 4.1). -/
def parseRest {V W : Type} (acc : List (Clause V)) :
    List (RawEntry V W) → Except GrammarError (ClauseModel V W)
  | [] => Except.error GrammarError.NoHead
  | [RawEntry.headE h] => Except.ok ⟨acc.reverse, h⟩
  | RawEntry.genE s :: rest => parseRest (Clause.gen s :: acc) rest
  | RawEntry.filtE p :: rest => parseRest (Clause.filt p :: acc) rest
  | RawEntry.headE _ :: _ :: _ => Except.error GrammarError.NoHead

/-- Modelled from the spec: the Clause Sequence Parser (sect. 4.1).  It is a
pure function producing either a Clause Model or a `GrammarError`, and it is
the stage run before either lowering engine, so its errors precede any
lowering or traversal. -/
def parse {V W : Type} : List (RawEntry V W) → Except GrammarError (ClauseModel V W)
  | [] => Except.error GrammarError.MissingLeadingGenerator
  | RawEntry.filtE _ :: _ => Except.error GrammarError.MissingLeadingGenerator
  | RawEntry.headE _ :: _ => Except.error GrammarError.MissingLeadingGenerator
  | RawEntry.genE s :: rest => parseRest [Clause.gen s] rest

/-- Claim C8: parsing the empty clause list, or any clause list whose first
entry is a `Filter`, fails with `GrammarError.MissingLeadingGenerator`; the
parser runs before the lowering engines, so the failure precedes any lowering
or traversal. -/
theorem leading_filter_rejected {V W : Type} (p : List V → Bool)
    (rest : List (RawEntry V W)) :
    parse ([] : List (RawEntry V W)) = Except.error GrammarError.MissingLeadingGenerator
      ∧ parse ((RawEntry.filtE p : RawEntry V W) :: rest)
        = Except.error GrammarError.MissingLeadingGenerator :=
  ⟨rfl, rfl⟩

end Cute
